import Mathlib

/- Verification development for src/2gemini.py (document marker pipeline).

   Strings are modelled as `List Char`.  Each `re.sub` call of the source is
   compiled, pattern by pattern, into a structurally recursive left-to-right
   scanning function that follows Python's `re.sub` semantics: scan left to
   right, at each position try to match (greedy), on a match emit the
   replacement and resume after the match, otherwise emit the character and
   advance by one.  File-system and remote-API effects are modelled by an
   explicit environment record and an association-list file system. -/

/-- The ASCII whitespace class of Python's regex `\s` and of `str.strip()`
    (space, tab, newline, carriage return, vertical tab, form feed). -/
def isPySpace (c : Char) : Bool :=
  c = ' ' || c = '\t' || c = '\n' || c = '\r' || c = '\x0b' || c = '\x0c'

/-- `leadsWith n l` holds when the character sequence `n` occurs at the very
    start of `l` (list-level model of Python's `startswith`). -/
def leadsWith : List Char → List Char → Bool
  | [], _ => true
  | _ :: _, [] => false
  | a :: n, b :: l => a == b && leadsWith n l

/-- `containsSeq n l` holds when `n` occurs as a contiguous subsequence of `l`
    (list-level model of Python's `in` on strings). -/
def containsSeq (n : List Char) : List Char → Bool
  | [] => n.isEmpty
  | c :: t => leadsWith n (c :: t) || containsSeq n t

/-- List-level model of Python's `endswith`. -/
def endsWithSeq (n l : List Char) : Bool :=
  leadsWith n.reverse l.reverse

/-- Longest all-whitespace run at the start of a list. -/
def wsTake : List Char → List Char
  | [] => []
  | c :: t => if isPySpace c then c :: wsTake t else []

/-- Remainder after the longest all-whitespace run at the start. -/
def wsDrop : List Char → List Char
  | [] => []
  | c :: t => if isPySpace c then wsDrop t else c :: t

/-- Remove trailing whitespace. -/
def wsDropEnd (l : List Char) : List Char :=
  (wsDrop l.reverse).reverse

/-- Python's `str.strip()`: remove leading and trailing whitespace. -/
def pyStrip (l : List Char) : List Char :=
  wsDropEnd (wsDrop l)

/- ---------------------------------------------------------------------
   Line 69: processed_text = re.sub(r"\n\s*\n", "\n\n", processed_text)

   A match of `\n\s*\n` can only start at a newline; the greedy `\s*`
   extends the match up to the last newline of the maximal whitespace run
   that follows.  Hence the substitution rewrites every maximal whitespace
   run that contains at least two newlines into: (its part before the first
   newline) ++ two newlines ++ (its part after the last newline), and
   copies everything else.  `collapseGo` performs this in one structural
   left-to-right pass, accumulating the current whitespace run in `pend`
   (in reverse order).
   --------------------------------------------------------------------- -/

/-- Split a list at its first newline: `w = a ++ '\n' :: b` with `a`
    newline-free, when `w` contains a newline. -/
def breakAtNl : List Char → Option (List Char × List Char)
  | [] => none
  | c :: t =>
    if c = '\n' then some ([], t)
    else
      match breakAtNl t with
      | some (a, b) => some (c :: a, b)
      | none => none

/-- Split a list at its last newline: `w = a ++ '\n' :: b` with `b`
    newline-free, when `w` contains a newline. -/
def splitLastNl : List Char → Option (List Char × List Char)
  | [] => none
  | c :: t =>
    match splitLastNl t with
    | some (a, b) => some (c :: a, b)
    | none => if c = '\n' then some ([], t) else none

/-- Rewrite one maximal whitespace run as `re.sub(r"\n\s*\n", "\n\n", ·)`
    does: if the run contains two or more newlines, everything from its
    first to its last newline becomes exactly two newlines. -/
def squashRun (w : List Char) : List Char :=
  match breakAtNl w with
  | none => w
  | some (a, b) =>
    match splitLastNl b with
    | none => w
    | some (_, b2) => a ++ '\n' :: '\n' :: b2

/-- Left-to-right pass of `re.sub(r"\n\s*\n", "\n\n", ·)`; `pend` is the
    whitespace run currently being scanned, in reverse order. -/
def collapseGo : List Char → List Char → List Char
  | [], pend => squashRun pend.reverse
  | c :: t, pend =>
    if isPySpace c then collapseGo t (c :: pend)
    else squashRun pend.reverse ++ c :: collapseGo t []

/-- `re.sub(r"\n\s*\n", "\n\n", text)` from line 69 of src/2gemini.py. -/
def collapseNl (l : List Char) : List Char :=
  collapseGo l []

/- ---------------------------------------------------------------------
   Line 68: re.sub(r"<br\s*/?>", "\n", raw_text, flags=re.IGNORECASE)

   Compiled to a scanning state machine.  A match can only start at '<';
   when an attempted match fails at character `c`, `re.sub` resumes
   scanning at the position after the '<'.  None of the characters
   consumed between the '<' and `c` (a 'b', an 'r', whitespace, '/') can
   start a match, so resuming is equivalent to emitting the consumed
   characters and rescanning only `c` itself from the neutral state.
   --------------------------------------------------------------------- -/

/-- State of the `<br\s*/?>` scanner: the characters of a partial match
    consumed so far. `ws` fields are in reverse order. -/
inductive BrSt
  | normal
  | lt
  | ltB (b : Char)
  | ltBR (b r : Char) (ws : List Char)
  | ltBRslash (b r : Char) (ws : List Char)

/-- Characters held by a partial `<br` match, for emission when the match
    fails at the end of the input. -/
def brBuf : BrSt → List Char
  | .normal => []
  | .lt => ['<']
  | .ltB b => ['<', b]
  | .ltBR b r ws => '<' :: b :: r :: ws.reverse
  | .ltBRslash b r ws => '<' :: b :: r :: ws.reverse ++ ['/']

/-- One left-to-right pass of `re.sub(r"<br\s*/?>", "\n", ·, re.IGNORECASE)`. -/
def brGo : BrSt → List Char → List Char
  | st, [] => brBuf st
  | .normal, c :: t =>
    if c = '<' then brGo .lt t else c :: brGo .normal t
  | .lt, c :: t =>
    if c.toLower = 'b' then brGo (.ltB c) t
    else if c = '<' then '<' :: brGo .lt t
    else '<' :: c :: brGo .normal t
  | .ltB b, c :: t =>
    if c.toLower = 'r' then brGo (.ltBR b c []) t
    else if c = '<' then '<' :: b :: brGo .lt t
    else '<' :: b :: c :: brGo .normal t
  | .ltBR b r ws, c :: t =>
    if c = '>' then '\n' :: brGo .normal t
    else if c = '/' then brGo (.ltBRslash b r ws) t
    else if isPySpace c then brGo (.ltBR b r (c :: ws)) t
    else if c = '<' then brBuf (.ltBR b r ws) ++ brGo .lt t
    else brBuf (.ltBR b r ws) ++ c :: brGo .normal t
  | .ltBRslash b r ws, c :: t =>
    if c = '>' then '\n' :: brGo .normal t
    else if c = '<' then brBuf (.ltBRslash b r ws) ++ brGo .lt t
    else brBuf (.ltBRslash b r ws) ++ c :: brGo .normal t

/-- `re.sub(r"<br\s*/?>", "\n", text, flags=re.IGNORECASE)` from line 68. -/
def brSub (l : List Char) : List Char :=
  brGo .normal l

/-- After `<br`: either `>`, or `/>` — the end of a literal tag. -/
def isBrClose : List Char → Bool
  | x :: rest =>
    x = '>' || (x = '/' && (match rest with
                            | y :: _ => y = '>'
                            | [] => false))
  | [] => false

/-- Detector for a literal `<br>` or `<br/>` tag (case-insensitive) at the
    start of a list. -/
def isBrLitAt : List Char → Bool
  | c :: b :: r :: rest =>
    c = '<' && b.toLower = 'b' && r.toLower = 'r' && isBrClose rest
  | _ => false

/-- The text contains a literal `<br>` or `<br/>` tag (case-insensitive). -/
def hasBrLit : List Char → Bool
  | [] => false
  | c :: t => isBrLitAt (c :: t) || hasBrLit t

/- ---------------------------------------------------------------------
   Line 72: re.sub(r"<img\s+[^>]*>", "", processed_text, flags=re.IGNORECASE)

   Compiled to a scanning state machine like `brGo`.  Once `<img` plus one
   whitespace character has been seen, `[^>]*>` consumes everything up to
   and including the first following '>' (greedy `[^>]*` cannot cross a
   '>').  A match attempt can only fail by reaching a non-matching
   character before the first whitespace, or by hitting the end of the
   input; in both cases the consumed characters (none of which can start a
   new match, and after which no '>' remains in the end-of-input case)
   are emitted and only the current character is rescanned.
   --------------------------------------------------------------------- -/

/-- State of the `<img\s+[^>]*>` scanner.  In `.body p`, `p` holds the
    characters consumed after the '<' in reverse order. -/
inductive ImgSt
  | normal
  | lt
  | lti (i : Char)
  | ltim (i m : Char)
  | ltimg (i m g : Char)
  | body (p : List Char)

/-- Characters held by a partial `<img` match, for emission when the match
    fails at the end of the input. -/
def imgBuf : ImgSt → List Char
  | .normal => []
  | .lt => ['<']
  | .lti i => ['<', i]
  | .ltim i m => ['<', i, m]
  | .ltimg i m g => ['<', i, m, g]
  | .body p => '<' :: p.reverse

/-- One left-to-right pass of `re.sub(r"<img\s+[^>]*>", "", ·, re.IGNORECASE)`. -/
def imgGo : ImgSt → List Char → List Char
  | st, [] => imgBuf st
  | .normal, c :: t =>
    if c = '<' then imgGo .lt t else c :: imgGo .normal t
  | .lt, c :: t =>
    if c.toLower = 'i' then imgGo (.lti c) t
    else if c = '<' then '<' :: imgGo .lt t
    else '<' :: c :: imgGo .normal t
  | .lti i, c :: t =>
    if c.toLower = 'm' then imgGo (.ltim i c) t
    else if c = '<' then '<' :: i :: imgGo .lt t
    else '<' :: i :: c :: imgGo .normal t
  | .ltim i m, c :: t =>
    if c.toLower = 'g' then imgGo (.ltimg i m c) t
    else if c = '<' then '<' :: i :: m :: imgGo .lt t
    else '<' :: i :: m :: c :: imgGo .normal t
  | .ltimg i m g, c :: t =>
    if isPySpace c then imgGo (.body [c, g, m, i]) t
    else if c = '<' then '<' :: i :: m :: g :: imgGo .lt t
    else '<' :: i :: m :: g :: c :: imgGo .normal t
  | .body p, c :: t =>
    if c = '>' then imgGo .normal t
    else imgGo (.body (c :: p)) t

/-- `re.sub(r"<img\s+[^>]*>", "", text, flags=re.IGNORECASE)` from line 72. -/
def imgSub (l : List Char) : List Char :=
  imgGo .normal l

/-- `re.sub(r"\n\n0\n\n", "\n\n", text)` from line 73: the pattern has no
    regex features, so this is a plain leftmost, non-overlapping
    find-and-replace. -/
def zeroSub : List Char → List Char
  | '\n' :: '\n' :: '0' :: '\n' :: '\n' :: t => '\n' :: '\n' :: zeroSub t
  | c :: t => c :: zeroSub t
  | [] => []

/-- Line 70: `"digipanp" in file_path.lower()`. -/
def isDigipanp (p : List Char) : Bool :=
  containsSeq ['d', 'i', 'g', 'i', 'p', 'a', 'n', 'p'] (p.map Char.toLower)

/-- The normalization of lines 67-73 of src/2gemini.py: `<br>` tags become
    newlines, whitespace runs with two or more newlines collapse, and for
    paths containing "digipanp" (case-insensitively) `<img ...>` tags and
    isolated `0` lines are additionally removed. -/
def normalizeText (filePath raw : List Char) : List Char :=
  let t1 := collapseNl (brSub raw)
  if isDigipanp filePath then zeroSub (imgSub t1) else t1

/- ---------------------------------------------------------------------
   Lines 123-126: post-processing of the model response.
   --------------------------------------------------------------------- -/

/-- The opening fence label `"```markdown"`. -/
def fenceOpen : List Char :=
  ['`', '`', '`', 'm', 'a', 'r', 'k', 'd', 'o', 'w', 'n']

/-- The closing fence `"```"`. -/
def fenceClose : List Char :=
  ['`', '`', '`']

/-- Lines 123-126 of src/2gemini.py:
    if generated_text.strip().startswith("```markdown"):
        generated_text = generated_text.strip()[len("```markdown"):].strip()
        if generated_text.strip().endswith("```"):
            generated_text = generated_text.strip()[:-len("```")].strip()
    (Python's `s[:-3]` on a string of length `n` is `take (n - 3)`, and is
    empty when `n ≤ 3`, which truncated Nat subtraction also gives.) -/
def postprocess (g : List Char) : List Char :=
  if leadsWith fenceOpen (pyStrip g) then
    let g1 := pyStrip ((pyStrip g).drop 11)
    if endsWithSeq fenceClose (pyStrip g1) then
      pyStrip ((pyStrip g1).take ((pyStrip g1).length - 3))
    else g1
  else g

/- ---------------------------------------------------------------------
   File system, environment and the control flow of
   process_file_with_gemini (lines 44-144) and of the module level
   (lines 9-35 and 147-177).
   --------------------------------------------------------------------- -/

/-- `os.path.dirname` keeps everything up to the last '/' and then strips
    trailing slashes, unless the head consists only of slashes. -/
def lastSlashIdx : List Char → Option Nat
  | [] => none
  | c :: t =>
    match lastSlashIdx t with
    | some k => some (k + 1)
    | none => if c = '/' then some 0 else none

/-- Remove leading '/' characters. -/
def dropSlashes : List Char → List Char
  | '/' :: t => dropSlashes t
  | l => l

/-- `os.path.dirname` (POSIX flavour) on list-modelled paths. -/
def dirname (p : List Char) : List Char :=
  match lastSlashIdx p with
  | none => []
  | some k =>
    let head := p.take (k + 1)
    if head.all (· = '/') then head else (dropSlashes head.reverse).reverse

/-- The remote model's reply: `text` is `none` when the response object has
    no `text` attribute, `blockReason` models
    `response.prompt_feedback.block_reason` when present. -/
structure GemResponse where
  text : Option (List Char)
  blockReason : Option (List Char)

/-- Non-file-system environment of one `process_file_with_gemini` call.
    `callResult` maps the normalized document text sent to the model to the
    response (`none` models `generate_content` raising); `readRaises` and
    `writeRaises` inject I/O exceptions into the read and save try-blocks
    (for the save block, after a successful directory creation). -/
structure ApiEnv where
  apiConfigured : Bool
  callResult : List Char → Option GemResponse
  readRaises : Bool
  writeRaises : Bool

/-- Association-list file system: existing directories and file contents. -/
structure FileSys where
  dirs : List (List Char)
  files : List (List Char × List Char)

/-- Content of the file at a path, if a file exists there. -/
def lookupFile : List (List Char × List Char) → List Char → Option (List Char)
  | [], _ => none
  | (q, c) :: rest, p => if q = p then some c else lookupFile rest p

/-- Create or overwrite the file at a path. -/
def setFile : List (List Char × List Char) → List Char → List Char →
    List (List Char × List Char)
  | [], p, c => [(p, c)]
  | (q, d) :: rest, p, c =>
    if q = p then (p, c) :: rest else (q, d) :: setFile rest p c

/-- `os.path.exists`: true for files and for directories. -/
def pathExists (fs : FileSys) (p : List Char) : Bool :=
  (lookupFile fs.files p).isSome || fs.dirs.contains p

/-- The diagnostics printed by `process_file_with_gemini`, one constructor
    per print site (line numbers of src/2gemini.py). -/
inductive Diag
  | configNotReady    -- line 50
  | fileMissing       -- line 55
  | readFailed        -- line 64
  | callFailed        -- line 115
  | noTextInResponse  -- line 109
  | promptBlocked     -- line 111
  | geminiFailed      -- line 119
  | saveFailed        -- line 141
  | saved             -- line 139
  deriving DecidableEq

/-- `process_file_with_gemini(file_path, output_path, ...)` (lines 44-144).
    Every `try/except` of the source is compiled into a `match` on the
    outcome of the attempted step, so the function is total: every failure
    is turned into a diagnostic and an early return, never a propagated
    exception.  The returned pair is the file system after the call and the
    diagnostics printed (informational progress prints are not modelled).
    The prompt construction of lines 78-93 embeds the normalized text; the
    model's answer is an arbitrary environment-supplied function of that
    text. -/
def processFile (fs : FileSys) (env : ApiEnv) (filePath outputPath : List Char) :
    FileSys × List Diag :=
  if env.apiConfigured = false then (fs, [.configNotReady])
  else if pathExists fs filePath = false then (fs, [.fileMissing])
  else
    match lookupFile fs.files filePath with
    | none => (fs, [.readFailed])      -- the path exists only as a directory
    | some raw =>
      if env.readRaises then (fs, [.readFailed])
      else
        let processed := normalizeText filePath raw
        match env.callResult processed with
        | none => (fs, [.callFailed, .geminiFailed])
        | some resp =>
          match resp.text with
          | none =>
            (fs, .noTextInResponse ::
              ((if resp.blockReason.isSome then [.promptBlocked] else []) ++
                [.geminiFailed]))
          | some g =>
            let finalText := postprocess g
            let outDir := dirname outputPath
            let fs1 :=
              if !outDir.isEmpty && !pathExists fs outDir then
                { fs with dirs := outDir :: fs.dirs }
              else fs
            if env.writeRaises then (fs1, [.saveFailed])
            else if outDir.isEmpty || fs1.dirs.contains outDir then
              ({ fs1 with files := setFile fs1.files outputPath finalText },
                [.saved])
            else (fs1, [.saveFailed])

/-- The top-level driver processes document jobs strictly one after the
    other (the script has one active call at line 165; line 168 is the
    commented-out second job). -/
def runJobs (env : ApiEnv) : FileSys → List (List Char × List Char) →
    FileSys × List (List Diag)
  | fs, [] => (fs, [])
  | fs, (fp, op) :: rest =>
    let step := processFile fs env fp op
    let later := runJobs env step.1 rest
    (later.1, step.2 :: later.2)

/-- Python truthiness of `os.getenv` results: `None` and the empty string
    are falsy. -/
def pyTruthyStr : Option (List Char) → Bool
  | none => false
  | some s => !s.isEmpty

/-- Module level of src/2gemini.py, lines 23-35 and 158-177: `exit()` when
    the credential is missing or empty (line 25) or when `genai.configure`
    raises (line 35); otherwise the single active document job runs.  The
    hard-coded paths are `os.getcwd()`-relative; `os.path.join` is modelled
    as '/'-separated concatenation. -/
def runScript (key : Option (List Char)) (configureRaises : Bool)
    (baseDir : List Char) (fs : FileSys) (env : ApiEnv) : FileSys :=
  if pyTruthyStr key = false then fs
  else if configureRaises then fs
  else
    let digipanpIn := baseDir ++ ('/' :: "AI-E-03/RAG/KIC_digiPanp.md".toList)
    let digipanpOut :=
      baseDir ++ ('/' :: "AI-E-03/RAG/KIC_digiPanp_marked_gemini.md".toList)
    (processFile fs { env with apiConfigured := true } digipanpIn digipanpOut).1

/- ---------------------------------------------------------------------
   Lines 9-20: layered credential lookup.
   --------------------------------------------------------------------- -/

/-- The three places a credential can come from: the process environment as
    it is when the script starts, the `GOOGLE_API_KEY` entry of the
    project-relative `AI-E-03/.env` file, and the entry of the same file
    addressed by absolute path (`none` when the file or the entry is
    absent). -/
structure CredSources where
  envVar : Option (List Char)
  relFile : Option (List Char)
  absFile : Option (List Char)

/-- One `load_dotenv(dotenv_path=...)` call: python-dotenv's default is
    `override=False`, so a variable already present in `os.environ` (even
    with an empty value) is never replaced by the file's entry. -/
def loadDotenvStep (cur fileVal : Option (List Char)) : Option (List Char) :=
  match cur with
  | some v => some v
  | none => fileVal

/-- Lines 9-17: load the relative `.env`, then, only when
    `os.getenv("GOOGLE_API_KEY")` is falsy, load the absolute-path `.env`,
    then read the variable. -/
def resolveGoogleApiKey (s : CredSources) : Option (List Char) :=
  let e1 := loadDotenvStep s.envVar s.relFile
  let e2 := if pyTruthyStr e1 then e1 else loadDotenvStep e1 s.absFile
  e2

/-- Modelled from the spec: the lookup order the specification describes
    ("checks a project-relative settings file, then falls back to a
    settings file addressed by absolute path, then to an already-exported
    environment value" — the first source yielding a value wins). -/
def specOrderLookup (s : CredSources) : Option (List Char) :=
  (s.relFile.or s.absFile).or s.envVar

example : brSub "a<br>b<BR/>c".toList = "a\nb\nc".toList := by decide
example : brSub "<br <br>x".toList = "<br \nx".toList := by decide
example : collapseNl "a\n\n\nb".toList = "a\n\nb".toList := by decide
example : collapseNl "a\n \n \nb".toList = "a\n\nb".toList := by decide
example : imgSub "x<img src=1>y<img/>z".toList = "xy<img/>z".toList := by decide
example : zeroSub "a\n\n0\n\n0\n\nb".toList = "a\n\n0\n\nb".toList := by decide
example : postprocess "```markdown\nA\n```".toList = ['A'] := by decide
example : dirname "a/b/c.md".toList = "a/b".toList := by decide
example : dirname "c.md".toList = [] := by decide
example : dirname "/a".toList = ['/'] := by decide

/- ---------------------------------------------------------------------
   Generic lemmas about the scanning primitives.
   --------------------------------------------------------------------- -/

theorem leadsWith_append_self (p r : List Char) : leadsWith p (p ++ r) = true := by
  induction p with
  | nil => rfl
  | cons a n ih => simp [leadsWith, ih]

theorem leadsWith_mono_needle (p q l : List Char)
    (h : leadsWith (p ++ q) l = true) : leadsWith p l = true := by
  induction p generalizing l with
  | nil => rfl
  | cons a n ih =>
    cases l with
    | nil => simp [leadsWith] at h
    | cons b t =>
      simp only [List.cons_append, leadsWith, Bool.and_eq_true] at h ⊢
      exact ⟨h.1, ih t h.2⟩

theorem leadsWith_extend_hay (p l r : List Char)
    (h : leadsWith p l = true) : leadsWith p (l ++ r) = true := by
  induction p generalizing l with
  | nil => rfl
  | cons a n ih =>
    cases l with
    | nil => simp [leadsWith] at h
    | cons b t =>
      simp only [List.cons_append, leadsWith, Bool.and_eq_true] at h ⊢
      exact ⟨h.1, ih t h.2⟩

theorem containsSeq_cons (n : List Char) (c : Char) (t : List Char) :
    containsSeq n (c :: t) = (leadsWith n (c :: t) || containsSeq n t) := rfl

theorem containsSeq_of_tail (n : List Char) (c : Char) (t : List Char)
    (h : containsSeq n t = true) : containsSeq n (c :: t) = true := by
  simp [containsSeq_cons, h]

theorem containsSeq_mono (p q l : List Char)
    (h : containsSeq (p ++ q) l = true) : containsSeq p l = true := by
  induction l with
  | nil =>
    simp [containsSeq, List.isEmpty_iff] at h ⊢
    exact h.1
  | cons c t ih =>
    simp only [containsSeq_cons, Bool.or_eq_true] at h ⊢
    rcases h with h | h
    · exact Or.inl (leadsWith_mono_needle p q _ h)
    · exact Or.inr (ih h)

theorem containsSeq_append_right (n x y : List Char)
    (h : containsSeq n y = true) : containsSeq n (x ++ y) = true := by
  induction x with
  | nil => exact h
  | cons c t ih => exact containsSeq_of_tail n c _ ih

theorem containsSeq_append_left (n x y : List Char)
    (h : containsSeq n x = true) : containsSeq n (x ++ y) = true := by
  induction x with
  | nil =>
    cases n with
    | nil => cases y <;> simp [containsSeq, leadsWith]
    | cons a m => simp [containsSeq] at h
  | cons c t ih =>
    simp only [List.cons_append, containsSeq_cons, Bool.or_eq_true] at h ⊢
    rcases h with h | h
    · exact Or.inl (leadsWith_extend_hay _ _ _ h)
    · exact Or.inr (ih h)

theorem containsSeq_nl_cons (c : Char) (t : List Char) :
    containsSeq ['\n'] (c :: t) = (('\n' == c) || containsSeq ['\n'] t) := by
  simp [containsSeq_cons, leadsWith]

/- ---------------------------------------------------------------------
   Whitespace stripping (Python `str.strip`) algebra.
   --------------------------------------------------------------------- -/

theorem wsDrop_cons_neg (c : Char) (t : List Char) (h : isPySpace c = false) :
    wsDrop (c :: t) = c :: t := by
  simp [wsDrop, h]

theorem wsDrop_head (l : List Char) (c : Char) (t : List Char)
    (h : wsDrop l = c :: t) : isPySpace c = false := by
  induction l with
  | nil => simp [wsDrop] at h
  | cons d r ih =>
    by_cases hd : isPySpace d
    · exact ih (by simpa [wsDrop, hd] using h)
    · simp [wsDrop, hd] at h
      rw [← h.1]
      simpa using hd

theorem wsDrop_append (a b : List Char) :
    wsDrop (a ++ b) = if wsDrop a = [] then wsDrop b else wsDrop a ++ b := by
  induction a with
  | nil => simp [wsDrop]
  | cons c t ih =>
    by_cases hc : isPySpace c
    · simpa [wsDrop, hc] using ih
    · simp [wsDrop, hc]

theorem wsDrop_idem (l : List Char) : wsDrop (wsDrop l) = wsDrop l := by
  induction l with
  | nil => rfl
  | cons c t ih =>
    by_cases hc : isPySpace c
    · simpa [wsDrop, hc] using ih
    · simp [wsDrop, hc]

theorem wsDropEnd_nil : wsDropEnd [] = [] := rfl

theorem wsDropEnd_append (a b : List Char) :
    wsDropEnd (a ++ b) = if wsDropEnd b = [] then wsDropEnd a else a ++ wsDropEnd b := by
  unfold wsDropEnd
  rw [List.reverse_append, wsDrop_append]
  by_cases hb : wsDrop b.reverse = []
  · simp [hb]
  · have hb2 : (wsDrop b.reverse).reverse ≠ [] := by
      intro hx
      exact hb (by simpa using congrArg List.reverse hx)
    simp [hb, hb2]

theorem wsDropEnd_cons (c : Char) (t : List Char) :
    wsDropEnd (c :: t) =
      if wsDropEnd t = [] then (if isPySpace c then [] else [c])
      else c :: wsDropEnd t := by
  have h : (c :: t) = [c] ++ t := rfl
  rw [h, wsDropEnd_append]
  by_cases ht : wsDropEnd t = []
  · by_cases hc : isPySpace c <;> simp [ht, hc, wsDropEnd, wsDrop]
  · simp [ht]

theorem wsDrop_wsDropEnd_comm (l : List Char) :
    wsDrop (wsDropEnd l) = wsDropEnd (wsDrop l) := by
  induction l with
  | nil => rfl
  | cons c t ih =>
    by_cases hc : isPySpace c
    · by_cases ht : wsDropEnd t = []
      · rw [wsDropEnd_cons, if_pos ht, if_pos hc]
        simp [wsDrop, hc, ← ih, ht]
      · rw [wsDropEnd_cons, if_neg ht]
        simp [wsDrop, hc, ih]
    · by_cases ht : wsDropEnd t = []
      · rw [wsDropEnd_cons, if_pos ht, if_neg hc]
        simp [wsDrop, hc, wsDropEnd_cons, ← ih, ht]
      · rw [wsDropEnd_cons, if_neg ht]
        simp [wsDrop, hc, wsDropEnd_cons, ht]

theorem wsDropEnd_idem (l : List Char) : wsDropEnd (wsDropEnd l) = wsDropEnd l := by
  unfold wsDropEnd
  rw [List.reverse_reverse, wsDrop_idem]

theorem pyStrip_wsDrop (l : List Char) : pyStrip (wsDrop l) = pyStrip l := by
  unfold pyStrip
  rw [wsDrop_idem]

theorem pyStrip_wsDropEnd (l : List Char) : pyStrip (wsDropEnd l) = pyStrip l := by
  unfold pyStrip
  rw [wsDrop_wsDropEnd_comm, wsDropEnd_idem]

theorem pyStrip_idem (l : List Char) : pyStrip (pyStrip l) = pyStrip l := by
  have h1 : pyStrip (pyStrip l) = pyStrip (wsDrop l) := by
    show pyStrip (wsDropEnd (wsDrop l)) = pyStrip (wsDrop l)
    exact pyStrip_wsDropEnd _
  rw [h1, pyStrip_wsDrop]

theorem wsTake_append_wsDrop (l : List Char) : wsTake l ++ wsDrop l = l := by
  induction l with
  | nil => rfl
  | cons c t ih =>
    by_cases hc : isPySpace c
    · simp [wsTake, wsDrop, hc, ih]
    · simp [wsTake, wsDrop, hc]

theorem wsTake_all (l : List Char) : (wsTake l).all isPySpace = true := by
  induction l with
  | nil => rfl
  | cons c t ih =>
    by_cases hc : isPySpace c
    · simp [wsTake, hc, ih]
    · simp [wsTake, hc]

theorem all_reverse_eq (p : Char → Bool) (l : List Char) :
    l.reverse.all p = l.all p := by
  induction l with
  | nil => rfl
  | cons c t ih => simp [List.reverse_cons, List.all_append, List.all_cons, ih, Bool.and_comm]

/-- `pyStrip l` is a contiguous slice of `l`: only whitespace is removed,
    and only at the two ends. -/
theorem pyStrip_slice (l : List Char) :
    ∃ a b, l = a ++ pyStrip l ++ b ∧ a.all isPySpace = true ∧ b.all isPySpace = true := by
  refine ⟨wsTake l, (wsTake (wsDrop l).reverse).reverse, ?_, wsTake_all l, ?_⟩
  · have h1 : l = wsTake l ++ wsDrop l := (wsTake_append_wsDrop l).symm
    have h2 : wsDrop l = wsDropEnd (wsDrop l) ++ (wsTake (wsDrop l).reverse).reverse := by
      have h3 : (wsDrop l).reverse = wsTake (wsDrop l).reverse ++ wsDrop (wsDrop l).reverse :=
        (wsTake_append_wsDrop _).symm
      have h4 := congrArg List.reverse h3
      simpa [List.reverse_append, wsDropEnd] using h4
    conv_lhs => rw [h1, h2]
    rw [← List.append_assoc]
    rfl
  · rw [all_reverse_eq]
    exact wsTake_all _

/- ---------------------------------------------------------------------
   Post-processing (lines 123-126): code-fence stripping.
   --------------------------------------------------------------------- -/

theorem postprocess_eq_stripped (g : List Char)
    (h1 : leadsWith fenceOpen (pyStrip g) = true)
    (h2 : endsWithSeq fenceClose (pyStrip (pyStrip ((pyStrip g).drop 11))) = true) :
    postprocess g = pyStrip ((pyStrip (pyStrip ((pyStrip g).drop 11))).take
      ((pyStrip (pyStrip ((pyStrip g).drop 11))).length - 3)) := by
  unfold postprocess
  rw [if_pos h1]
  simp only [h2, if_true]

theorem postprocess_eq_no_close (g : List Char)
    (h1 : leadsWith fenceOpen (pyStrip g) = true)
    (h2 : endsWithSeq fenceClose (pyStrip (pyStrip ((pyStrip g).drop 11))) = false) :
    postprocess g = pyStrip ((pyStrip g).drop 11) := by
  unfold postprocess
  rw [if_pos h1]
  simp only [h2, Bool.false_eq_true, if_false]

theorem pyStrip_append_fenceClose (inner : List Char) :
    pyStrip (inner ++ fenceClose) = wsDrop inner ++ fenceClose := by
  have hwefc : wsDropEnd fenceClose = fenceClose := by decide
  have hfc : fenceClose ≠ ([] : List Char) := by decide
  show wsDropEnd (wsDrop (inner ++ fenceClose)) = _
  rw [wsDrop_append]
  by_cases hi : wsDrop inner = []
  · rw [if_pos hi, hi]
    show wsDropEnd (wsDrop fenceClose) = [] ++ fenceClose
    have h3 : wsDrop fenceClose = fenceClose := by decide
    rw [h3, hwefc]
    rfl
  · rw [if_neg hi, wsDropEnd_append, hwefc, if_neg hfc]

/-- C2 (amended): for every response of the form
    `"```markdown" ++ inner ++ "```"`, the post-processing of lines 123-126
    strips both fences and returns `inner` with its leading and trailing
    whitespace removed; apart from that whitespace the inner text is a
    contiguous, unmodified slice of the original. -/
theorem postprocess_fenced (inner : List Char) :
    postprocess (fenceOpen ++ inner ++ fenceClose) = pyStrip inner ∧
    ∃ a b, inner = a ++ pyStrip inner ++ b ∧
      a.all isPySpace = true ∧ b.all isPySpace = true := by
  refine ⟨?_, pyStrip_slice inner⟩
  have hwsfo : wsDrop fenceOpen = fenceOpen := by decide
  have hfo : fenceOpen ≠ ([] : List Char) := by decide
  have hwefc : wsDropEnd fenceClose = fenceClose := by decide
  have hfc : fenceClose ≠ ([] : List Char) := by decide
  have hg : pyStrip (fenceOpen ++ inner ++ fenceClose) =
      fenceOpen ++ inner ++ fenceClose := by
    show wsDropEnd (wsDrop (fenceOpen ++ inner ++ fenceClose)) = _
    rw [List.append_assoc, wsDrop_append, hwsfo, if_neg hfo,
      ← List.append_assoc, wsDropEnd_append, hwefc, if_neg hfc]
  have hlead : leadsWith fenceOpen (pyStrip (fenceOpen ++ inner ++ fenceClose)) = true := by
    rw [hg, List.append_assoc]
    exact leadsWith_append_self _ _
  have hdrop11 : (pyStrip (fenceOpen ++ inner ++ fenceClose)).drop 11 =
      inner ++ fenceClose := by
    rw [hg, List.append_assoc]
    have h11 : (11 : Nat) = fenceOpen.length := rfl
    rw [h11, List.drop_left]
  have hg1 : pyStrip (pyStrip ((pyStrip (fenceOpen ++ inner ++ fenceClose)).drop 11)) =
      wsDrop inner ++ fenceClose := by
    rw [hdrop11, pyStrip_idem, pyStrip_append_fenceClose]
  have hend : endsWithSeq fenceClose
      (pyStrip (pyStrip ((pyStrip (fenceOpen ++ inner ++ fenceClose)).drop 11))) = true := by
    rw [hg1]
    unfold endsWithSeq
    rw [List.reverse_append]
    exact leadsWith_append_self _ _
  rw [postprocess_eq_stripped _ hlead hend, hg1]
  have hlen : (wsDrop inner ++ fenceClose).length - 3 = (wsDrop inner).length := by
    simp [List.length_append, fenceClose]
  rw [hlen]
  have htake : (wsDrop inner ++ fenceClose).take (wsDrop inner).length = wsDrop inner :=
    List.take_left _ _
  rw [htake, pyStrip_wsDrop]

/-- C2 (counterexample to the claim as stated): for the response
    `"```markdown\nA\n```"` the text written is `"A"`, not the inner text
    `"\nA\n"` between the fences — the code strips surrounding whitespace,
    so the inner text is not preserved byte-for-byte. -/
theorem postprocess_fenced_strips_whitespace :
    postprocess (fenceOpen ++ ('\n' :: 'A' :: '\n' :: []) ++ fenceClose) = ['A'] ∧
    ('A' :: [] : List Char) ≠ '\n' :: 'A' :: '\n' :: [] := by
  constructor
  · decide
  · decide

/-- C9: when the (stripped) response starts with the ```markdown opener,
    the opener is removed and the remainder stripped of surrounding
    whitespace even when no closing ``` fence follows: the inner `endswith`
    check only guards the removal of the closing fence. -/
theorem postprocess_open_without_close (inner : List Char)
    (h : endsWithSeq fenceClose (pyStrip inner) = false) :
    postprocess (fenceOpen ++ inner) = pyStrip inner := by
  have hwsfo : wsDrop fenceOpen = fenceOpen := by decide
  have hfo : fenceOpen ≠ ([] : List Char) := by decide
  have hwefo : wsDropEnd fenceOpen = fenceOpen := by decide
  have hg : pyStrip (fenceOpen ++ inner) = fenceOpen ++ wsDropEnd inner := by
    show wsDropEnd (wsDrop (fenceOpen ++ inner)) = _
    rw [wsDrop_append, hwsfo, if_neg hfo, wsDropEnd_append]
    by_cases hi : wsDropEnd inner = []
    · rw [if_pos hi, hwefo, hi, List.append_nil]
    · rw [if_neg hi]
  have hlead : leadsWith fenceOpen (pyStrip (fenceOpen ++ inner)) = true := by
    rw [hg]
    exact leadsWith_append_self _ _
  have hdrop11 : (pyStrip (fenceOpen ++ inner)).drop 11 = wsDropEnd inner := by
    rw [hg]
    have h11 : (11 : Nat) = fenceOpen.length := rfl
    rw [h11, List.drop_left]
  have hg1 : pyStrip (pyStrip ((pyStrip (fenceOpen ++ inner)).drop 11)) = pyStrip inner := by
    rw [hdrop11, pyStrip_idem, pyStrip_wsDropEnd]
  have hend : endsWithSeq fenceClose
      (pyStrip (pyStrip ((pyStrip (fenceOpen ++ inner)).drop 11))) = false := by
    rw [hg1]
    exact h
  rw [postprocess_eq_no_close _ hlead hend, hdrop11, pyStrip_wsDropEnd]

/-- Witness for C9 at the concrete response `"```markdown hello"`. -/
theorem postprocess_open_without_close_witness :
    postprocess (fenceOpen ++ (' ' :: 'h' :: 'e' :: 'l' :: 'l' :: 'o' :: [])) =
      'h' :: 'e' :: 'l' :: 'l' :: 'o' :: [] := by
  have h := postprocess_open_without_close
    (' ' :: 'h' :: 'e' :: 'l' :: 'l' :: 'o' :: []) (by decide)
  rw [h]
  decide

/- ---------------------------------------------------------------------
   Credential lookup (lines 9-20).
   --------------------------------------------------------------------- -/

/-- C8 (counterexample to the claim as stated): when the variable is
    already exported with value "E" and the project-relative settings file
    holds "F", the code resolves to "E" while the claimed
    file-first precedence would resolve to "F". -/
theorem resolveKey_env_beats_files :
    resolveGoogleApiKey ⟨some ['E'], some ['F'], none⟩ = some ['E'] ∧
    specOrderLookup ⟨some ['E'], some ['F'], none⟩ = some ['F'] ∧
    (some ['E'] : Option (List Char)) ≠ some ['F'] := by
  refine ⟨by decide, by decide, by decide⟩

/-- C8 (amended): the actual precedence is the reverse of the claimed one —
    an entry already present in the process environment (even an empty one)
    wins, then the project-relative settings file, then the absolute-path
    settings file. -/
theorem resolveKey_precedence (s : CredSources) :
    resolveGoogleApiKey s = (s.envVar.or s.relFile).or s.absFile := by
  rcases s with ⟨e, r, a⟩
  cases e with
  | some v =>
    show (if pyTruthyStr (some v) then some v else loadDotenvStep (some v) a) = _
    split <;> simp [loadDotenvStep, Option.or]
  | none =>
    cases r with
    | some v =>
      show (if pyTruthyStr (some v) then some v else loadDotenvStep (some v) a) = _
      split <;> simp [loadDotenvStep, Option.or]
    | none =>
      show (if pyTruthyStr none then none else loadDotenvStep none a) = _
      simp [pyTruthyStr, loadDotenvStep, Option.or]

/- ---------------------------------------------------------------------
   File-system lemmas.
   --------------------------------------------------------------------- -/

theorem lookupFile_setFile_self (files : List (List Char × List Char))
    (p c : List Char) : lookupFile (setFile files p c) p = some c := by
  induction files with
  | nil => simp [setFile, lookupFile]
  | cons e rest ih =>
    rcases e with ⟨q, d⟩
    by_cases h : q = p
    · simp [setFile, lookupFile, h]
    · simp [setFile, lookupFile, h, ih]

theorem lookupFile_setFile_ne (files : List (List Char × List Char))
    (p c q : List Char) (h : q ≠ p) :
    lookupFile (setFile files p c) q = lookupFile files q := by
  have hpq : p ≠ q := Ne.symm h
  induction files with
  | nil => simp [setFile, lookupFile, hpq]
  | cons e rest ih =>
    rcases e with ⟨k, d⟩
    by_cases hk : k = p
    · subst hk
      simp [setFile, lookupFile, hpq]
    · simp [setFile, lookupFile, hk, ih]

/- ---------------------------------------------------------------------
   C1: failure before the write step leaves the file system untouched.
   --------------------------------------------------------------------- -/

/-- C1: if the remote call raises, or the response has no text payload, or
    the API is not configured, `process_file_with_gemini` returns before
    the write step and no file or directory is created or modified; and
    with a missing (or empty) credential the script exits at line 25
    without running any job, so nothing is written. -/
theorem processFile_failure_no_write :
    (∀ fs env fp op, env.apiConfigured = false →
      (processFile fs env fp op).1 = fs) ∧
    (∀ fs env fp op, (∀ x, env.callResult x = none) →
      (processFile fs env fp op).1 = fs) ∧
    (∀ fs env fp op, (∀ x r, env.callResult x = some r → r.text = none) →
      (processFile fs env fp op).1 = fs) ∧
    (∀ key cr bd fs env, pyTruthyStr key = false →
      runScript key cr bd fs env = fs) := by
  refine ⟨?_, ?_, ?_, ?_⟩
  · intro fs env fp op h
    unfold processFile
    rw [if_pos h]
  · intro fs env fp op h
    unfold processFile
    split
    · rfl
    split
    · rfl
    split
    · rfl
    split
    · rfl
    simp [h]
  · intro fs env fp op h
    unfold processFile
    split
    · rfl
    split
    · rfl
    split
    · rfl
    split
    · rfl
    rename_i raw _ _
    cases hcall : env.callResult (normalizeText fp raw) with
    | none => simp [hcall]
    | some r =>
      have ht := h _ r hcall
      simp [hcall, ht]
  · intro key cr bd fs env h
    unfold runScript
    rw [if_pos h]

/-- Witness for C1 at a concrete unconfigured environment. -/
theorem processFile_failure_no_write_witness :
    (processFile ⟨[], []⟩ ⟨false, fun _ => none, false, false⟩ [] []).1 =
      (⟨[], []⟩ : FileSys) :=
  processFile_failure_no_write.1 ⟨[], []⟩ ⟨false, fun _ => none, false, false⟩ [] [] rfl

/- ---------------------------------------------------------------------
   C6: every failure kind prints its diagnostic and returns normally.
   --------------------------------------------------------------------- -/

/-- C6: `process_file_with_gemini` is total — every `try/except` of the
    source is compiled into a handled case, so no exception propagates —
    and each failure kind produces its diagnostic: configuration not
    completed, input file missing, read error, remote-call error, empty
    response, and write error; the top-level driver therefore produces one
    result per document job, continuing past failures. -/
theorem processFile_diagnostics :
    (∀ fs env fp op, env.apiConfigured = false →
      (processFile fs env fp op).2 = [Diag.configNotReady]) ∧
    (∀ fs env fp op, env.apiConfigured = true → pathExists fs fp = false →
      (processFile fs env fp op).2 = [Diag.fileMissing]) ∧
    (∀ fs env fp op raw, env.apiConfigured = true → pathExists fs fp = true →
      lookupFile fs.files fp = some raw → env.readRaises = true →
      (processFile fs env fp op).2 = [Diag.readFailed]) ∧
    (∀ fs env fp op raw, env.apiConfigured = true → pathExists fs fp = true →
      lookupFile fs.files fp = some raw → env.readRaises = false →
      env.callResult (normalizeText fp raw) = none →
      (processFile fs env fp op).2 = [Diag.callFailed, Diag.geminiFailed]) ∧
    (∀ fs env fp op raw r, env.apiConfigured = true → pathExists fs fp = true →
      lookupFile fs.files fp = some raw → env.readRaises = false →
      env.callResult (normalizeText fp raw) = some r → r.text = none →
      Diag.noTextInResponse ∈ (processFile fs env fp op).2) ∧
    (∀ fs env fp op raw r g, env.apiConfigured = true → pathExists fs fp = true →
      lookupFile fs.files fp = some raw → env.readRaises = false →
      env.callResult (normalizeText fp raw) = some r → r.text = some g →
      env.writeRaises = true →
      (processFile fs env fp op).2 = [Diag.saveFailed]) ∧
    (∀ env fs jobs, ((runJobs env fs jobs).2).length = jobs.length) := by
  refine ⟨?_, ?_, ?_, ?_, ?_, ?_, ?_⟩
  · intro fs env fp op h
    simp [processFile, h]
  · intro fs env fp op h1 h2
    simp [processFile, h1, h2]
  · intro fs env fp op raw h1 h2 h3 h4
    simp [processFile, h1, h2, h3, h4]
  · intro fs env fp op raw h1 h2 h3 h4 h5
    simp [processFile, h1, h2, h3, h4, h5]
  · intro fs env fp op raw r h1 h2 h3 h4 h5 h6
    simp [processFile, h1, h2, h3, h4, h5, h6]
  · intro fs env fp op raw r g h1 h2 h3 h4 h5 h6 h7
    simp [processFile, h1, h2, h3, h4, h5, h6, h7]
  · intro env fs jobs
    induction jobs generalizing fs with
    | nil => rfl
    | cons j rest ih =>
      rcases j with ⟨fp, op⟩
      simp [runJobs, ih]

/-- Witness for C6 at a concrete failing remote call. -/
theorem processFile_diagnostics_witness :
    (processFile ⟨[], [(['f'], ['x'])]⟩ ⟨true, fun _ => none, false, false⟩
      ['f'] ['o']).2 = [Diag.callFailed, Diag.geminiFailed] :=
  processFile_diagnostics.2.2.2.1 ⟨[], [(['f'], ['x'])]⟩
    ⟨true, fun _ => none, false, false⟩ ['f'] ['o'] ['x']
    rfl (by decide) (by decide) rfl rfl

/- ---------------------------------------------------------------------
   C7: the output directory is created before the write.
   --------------------------------------------------------------------- -/

/-- C7: when the pipeline reaches the save step and the parent directory of
    the output path does not exist, lines 131-138 create it before opening
    the output file, and the write then succeeds: afterwards the directory
    exists, the output file holds the post-processed text, and the saved
    confirmation is printed. -/
theorem writeBlock_creates_dir (fs : FileSys) (env : ApiEnv)
    (fp op raw : List Char) (r : GemResponse) (g : List Char)
    (h1 : env.apiConfigured = true) (h2 : pathExists fs fp = true)
    (h3 : lookupFile fs.files fp = some raw) (h4 : env.readRaises = false)
    (h5 : env.callResult (normalizeText fp raw) = some r) (h6 : r.text = some g)
    (h7 : env.writeRaises = false)
    (h8 : dirname op ≠ []) (h9 : pathExists fs (dirname op) = false) :
    (processFile fs env fp op).1.dirs.contains (dirname op) = true ∧
    lookupFile (processFile fs env fp op).1.files op = some (postprocess g) ∧
    (processFile fs env fp op).2 = [Diag.saved] := by
  have h8e : (dirname op).isEmpty = false := by
    cases hd : dirname op with
    | nil => exact absurd hd h8
    | cons a t => rfl
  have hres : processFile fs env fp op =
      ((⟨dirname op :: fs.dirs, setFile fs.files op (postprocess g)⟩ : FileSys),
        [Diag.saved]) := by
    simp [processFile, h1, h2, h3, h4, h5, h6, h7, h8e, h9, List.contains_cons]
  rw [hres]
  refine ⟨by simp [List.contains_cons], lookupFile_setFile_self _ _ _, rfl⟩

/-- Witness for C7 at a concrete missing output directory. -/
theorem writeBlock_creates_dir_witness :
    (processFile ⟨[], [(['f'], ['x'])]⟩
        ⟨true, fun _ => some ⟨some ['y'], none⟩, false, false⟩
        ['f'] ['d', '/', 'o']).1.dirs.contains (dirname ['d', '/', 'o']) = true ∧
    lookupFile (processFile ⟨[], [(['f'], ['x'])]⟩
        ⟨true, fun _ => some ⟨some ['y'], none⟩, false, false⟩
        ['f'] ['d', '/', 'o']).1.files ['d', '/', 'o'] = some (postprocess ['y']) ∧
    (processFile ⟨[], [(['f'], ['x'])]⟩
        ⟨true, fun _ => some ⟨some ['y'], none⟩, false, false⟩
        ['f'] ['d', '/', 'o']).2 = [Diag.saved] :=
  writeBlock_creates_dir ⟨[], [(['f'], ['x'])]⟩
    ⟨true, fun _ => some ⟨some ['y'], none⟩, false, false⟩
    ['f'] ['d', '/', 'o'] ['x'] ⟨some ['y'], none⟩ ['y']
    rfl (by decide) (by decide) rfl rfl rfl rfl (by decide) (by decide)

/- ---------------------------------------------------------------------
   C10: the input file is only safe when the two paths differ.
   --------------------------------------------------------------------- -/

/-- C10 (counterexample to the claim as stated): an invocation with
    `output_path = file_path` overwrites the input file — the content at
    the input path changes from "O" to the processed response "N". -/
theorem processFile_aliased_overwrites :
    lookupFile (processFile ⟨[], [(['p'], ['O'])]⟩
        ⟨true, fun _ => some ⟨some ['N'], none⟩, false, false⟩
        ['p'] ['p']).1.files ['p'] = some ['N'] ∧
    lookupFile (⟨[], [(['p'], ['O'])]⟩ : FileSys).files ['p'] = some ['O'] ∧
    (some ['N'] : Option (List Char)) ≠ some ['O'] := by
  refine ⟨by decide, by decide, by decide⟩

/-- C10 (amended): for every invocation whose output path differs from the
    input path, the input file's content is unchanged: the input is only
    read, and the only write is to the output path. -/
theorem processFile_preserves_input (fs : FileSys) (env : ApiEnv)
    (fp op : List Char) (h : fp ≠ op) :
    lookupFile (processFile fs env fp op).1.files fp = lookupFile fs.files fp := by
  unfold processFile
  split
  · rfl
  split
  · rfl
  split
  · rfl
  split
  · rfl
  rename_i raw _ _
  cases hcall : env.callResult (normalizeText fp raw) with
  | none => simp [hcall]
  | some r =>
    cases htext : r.text with
    | none => simp [hcall, htext]
    | some g =>
      simp only [hcall, htext]
      repeat' split
      all_goals first
        | rfl
        | simp [lookupFile_setFile_ne _ _ _ _ h]

/-- Witness for C10 (amended) at concrete distinct paths. -/
theorem processFile_preserves_input_witness :
    lookupFile (processFile ⟨[], [(['p'], ['O'])]⟩
        ⟨true, fun _ => some ⟨some ['N'], none⟩, false, false⟩
        ['p'] ['q']).1.files ['p'] =
      lookupFile (⟨[], [(['p'], ['O'])]⟩ : FileSys).files ['p'] :=
  processFile_preserves_input ⟨[], [(['p'], ['O'])]⟩
    ⟨true, fun _ => some ⟨some ['N'], none⟩, false, false⟩ ['p'] ['q'] (by decide)

/- ---------------------------------------------------------------------
   C4: the blank-line collapse of line 69.
   --------------------------------------------------------------------- -/

theorem nlFree_leadsWith_nl (b : List Char) (hb : containsSeq ['\n'] b = false)
    (r : List Char) : leadsWith ('\n' :: r) b = false := by
  cases b with
  | nil => rfl
  | cons c t =>
    rw [containsSeq_nl_cons] at hb
    simp only [Bool.or_eq_false_iff] at hb
    simp [leadsWith, hb.1]

theorem nlFree_noTriple (w : List Char) (hw : containsSeq ['\n'] w = false) :
    containsSeq ['\n', '\n', '\n'] w = false := by
  induction w with
  | nil => rfl
  | cons c t ih =>
    rw [containsSeq_nl_cons] at hw
    simp only [Bool.or_eq_false_iff] at hw
    simp [containsSeq_cons, leadsWith, hw.1, ih hw.2]

theorem nlFree_skip (r a z : List Char) (ha : containsSeq ['\n'] a = false) :
    containsSeq ('\n' :: r) (a ++ z) = containsSeq ('\n' :: r) z := by
  induction a with
  | nil => rfl
  | cons c t ih =>
    rw [containsSeq_nl_cons] at ha
    simp only [Bool.or_eq_false_iff] at ha
    simp [containsSeq_cons, leadsWith, ha.1, ih ha.2]

theorem breakAtNl_none (w : List Char) (h : breakAtNl w = none) :
    containsSeq ['\n'] w = false := by
  induction w with
  | nil => rfl
  | cons c t ih =>
    by_cases hc : c = '\n'
    · simp [breakAtNl, hc] at h
    · rw [containsSeq_nl_cons]
      have hbeq : ('\n' == c) = false := by
        simp [beq_eq_false_iff_ne]
        exact fun hx => hc hx.symm
      simp only [breakAtNl, hc, if_false] at h
      cases hbr : breakAtNl t with
      | none => simp [hbeq, ih hbr]
      | some p => simp [hbr] at h

theorem breakAtNl_some (w : List Char) : ∀ a b, breakAtNl w = some (a, b) →
    w = a ++ '\n' :: b ∧ containsSeq ['\n'] a = false := by
  induction w with
  | nil => intro a b h; simp [breakAtNl] at h
  | cons c t ih =>
    intro a b h
    by_cases hc : c = '\n'
    · subst hc
      simp [breakAtNl] at h
      rcases h with ⟨h1, h2⟩
      subst h1
      subst h2
      exact ⟨rfl, rfl⟩
    · simp only [breakAtNl, hc, if_false] at h
      cases hbr : breakAtNl t with
      | none => rw [hbr] at h; simp at h
      | some p =>
        rcases p with ⟨a1, b1⟩
        rw [hbr] at h
        simp at h
        rcases h with ⟨h1, h2⟩
        have hspec := ih a1 b1 hbr
        subst h1
        subst h2
        refine ⟨?_, ?_⟩
        · rw [List.cons_append, ← hspec.1]
        · rw [containsSeq_nl_cons]
          have hbeq : ('\n' == c) = false := by
            simp [beq_eq_false_iff_ne]
            exact fun hx => hc hx.symm
          simp [hbeq, hspec.2]

theorem splitLastNl_none (w : List Char) (h : splitLastNl w = none) :
    containsSeq ['\n'] w = false := by
  induction w with
  | nil => rfl
  | cons c t ih =>
    simp only [splitLastNl] at h
    cases hsp : splitLastNl t with
    | some p => simp [hsp] at h
    | none =>
      rw [hsp] at h
      by_cases hc : c = '\n'
      · simp [hc] at h
      · have hbeq : ('\n' == c) = false := by
          simp [beq_eq_false_iff_ne]
          exact fun hx => hc hx.symm
        rw [containsSeq_nl_cons]
        simp [hbeq, ih hsp]

theorem splitLastNl_some (w : List Char) : ∀ a b, splitLastNl w = some (a, b) →
    w = a ++ '\n' :: b ∧ containsSeq ['\n'] b = false := by
  induction w with
  | nil => intro a b h; simp [splitLastNl] at h
  | cons c t ih =>
    intro a b h
    simp only [splitLastNl] at h
    cases hsp : splitLastNl t with
    | some p =>
      rcases p with ⟨a1, b1⟩
      rw [hsp] at h
      simp at h
      rcases h with ⟨h1, h2⟩
      have hspec := ih a1 b1 hsp
      subst h1
      subst h2
      refine ⟨?_, hspec.2⟩
      rw [List.cons_append, ← hspec.1]
    | none =>
      rw [hsp] at h
      by_cases hc : c = '\n'
      · subst hc
        simp at h
        rcases h with ⟨h1, h2⟩
        subst h1
        subst h2
        exact ⟨rfl, splitLastNl_none t hsp⟩
      · simp [hc] at h

theorem squash_noTriple (w : List Char) :
    containsSeq ['\n', '\n', '\n'] (squashRun w) = false := by
  cases hbr : breakAtNl w with
  | none =>
    have hsq : squashRun w = w := by simp [squashRun, hbr]
    rw [hsq]
    exact nlFree_noTriple w (breakAtNl_none w hbr)
  | some p =>
    rcases p with ⟨a, b⟩
    have ha := breakAtNl_some w a b hbr
    cases hsp : splitLastNl b with
    | none =>
      have hsq : squashRun w = w := by simp [squashRun, hbr, hsp]
      have hb := splitLastNl_none b hsp
      rw [hsq, ha.1, nlFree_skip _ a _ ha.2, containsSeq_cons]
      have h1 : leadsWith ['\n', '\n', '\n'] ('\n' :: b) = false := by
        simp [leadsWith, nlFree_leadsWith_nl b hb ['\n']]
      simp [h1, nlFree_noTriple b hb]
    | some q =>
      rcases q with ⟨a2, b2⟩
      have hsq : squashRun w = a ++ '\n' :: '\n' :: b2 := by
        simp [squashRun, hbr, hsp]
      have hb2 := (splitLastNl_some b a2 b2 hsp).2
      rw [hsq, nlFree_skip _ a _ ha.2, containsSeq_cons, containsSeq_cons]
      have h1 : leadsWith ['\n', '\n', '\n'] ('\n' :: '\n' :: b2) = false := by
        simp [leadsWith, nlFree_leadsWith_nl b2 hb2 []]
      have h2 : leadsWith ['\n', '\n', '\n'] ('\n' :: b2) = false := by
        simp [leadsWith, nlFree_leadsWith_nl b2 hb2 ['\n']]
      simp [h1, h2, nlFree_noTriple b2 hb2]

theorem leadsWith_nl3_ext (d c : Char) (x y : List Char)
    (hc : ('\n' == c) = false)
    (h : leadsWith ['\n', '\n', '\n'] (d :: x) = false) :
    leadsWith ['\n', '\n', '\n'] (d :: (x ++ c :: y)) = false := by
  match x with
  | [] => simp [leadsWith, hc]
  | [e] => simp [leadsWith, hc]
  | e :: f :: x2 =>
    simp only [leadsWith, List.cons_append] at h ⊢
    simpa using h

theorem noTriple_glue (x y : List Char) (c : Char) (hc : ('\n' == c) = false)
    (hx : containsSeq ['\n', '\n', '\n'] x = false)
    (hy : containsSeq ['\n', '\n', '\n'] y = false) :
    containsSeq ['\n', '\n', '\n'] (x ++ c :: y) = false := by
  induction x with
  | nil => simp [containsSeq_cons, leadsWith, hc, hy]
  | cons d x2 ih =>
    rw [containsSeq_cons] at hx
    simp only [Bool.or_eq_false_iff] at hx
    rw [List.cons_append, containsSeq_cons]
    simp [leadsWith_nl3_ext d c x2 y hc hx.1, ih hx.2]

theorem collapseGo_noTriple (l : List Char) : ∀ pend,
    containsSeq ['\n', '\n', '\n'] (collapseGo l pend) = false := by
  induction l with
  | nil => intro pend; exact squash_noTriple _
  | cons c t ih =>
    intro pend
    by_cases hc : isPySpace c
    · simpa [collapseGo, hc] using ih (c :: pend)
    · have hcn : ('\n' == c) = false := by
        cases hnc : ('\n' == c) with
        | false => rfl
        | true =>
          have hcc : '\n' = c := beq_iff_eq.mp hnc
          rw [← hcc] at hc
          exact absurd (by decide : isPySpace '\n' = true) hc
      simp only [collapseGo, hc, if_false]
      exact noTriple_glue _ _ c hcn (squash_noTriple _) (ih [])

theorem nl_of_leadsWith (b : List Char)
    (h : leadsWith ['\n'] b = true) : containsSeq ['\n'] b = true := by
  cases b with
  | nil => simp [leadsWith] at h
  | cons c t =>
    rw [containsSeq_nl_cons]
    simp only [leadsWith, Bool.and_eq_true] at h
    simp [h.1]

theorem nl2_in_break (a b : List Char) (ha : containsSeq ['\n'] a = false)
    (h : containsSeq ['\n', '\n'] (a ++ '\n' :: b) = true) :
    containsSeq ['\n'] b = true := by
  rw [nlFree_skip _ a _ ha, containsSeq_cons] at h
  simp only [Bool.or_eq_true] at h
  rcases h with h | h
  · simp only [leadsWith, Bool.and_eq_true] at h
    exact nl_of_leadsWith b h.2
  · exact containsSeq_mono ['\n'] ['\n'] b h

theorem squash_keeps_nl2 (w : List Char)
    (h : containsSeq ['\n', '\n'] w = true) :
    containsSeq ['\n', '\n'] (squashRun w) = true := by
  have hnl : containsSeq ['\n'] w = true := containsSeq_mono ['\n'] ['\n'] w h
  cases hbr : breakAtNl w with
  | none => rw [breakAtNl_none w hbr] at hnl; exact absurd hnl (by simp)
  | some p =>
    rcases p with ⟨a, b⟩
    have ha := breakAtNl_some w a b hbr
    have hb : containsSeq ['\n'] b = true := by
      apply nl2_in_break a b ha.2
      rw [← ha.1]
      exact h
    cases hsp : splitLastNl b with
    | none => rw [splitLastNl_none b hsp] at hb; exact absurd hb (by simp)
    | some q =>
      rcases q with ⟨a2, b2⟩
      have hsq : squashRun w = a ++ '\n' :: '\n' :: b2 := by
        simp [squashRun, hbr, hsp]
      rw [hsq]
      apply containsSeq_append_right
      rw [containsSeq_cons]
      simp [leadsWith]

theorem nl2_split (x y : List Char) (c : Char) (hc : ('\n' == c) = false)
    (h : containsSeq ['\n', '\n'] (x ++ c :: y) = true) :
    containsSeq ['\n', '\n'] x = true ∨ containsSeq ['\n', '\n'] y = true := by
  induction x with
  | nil =>
    rw [List.nil_append, containsSeq_cons] at h
    simp only [leadsWith, hc, Bool.false_and, Bool.false_or] at h
    exact Or.inr h
  | cons d x2 ih =>
    rw [List.cons_append, containsSeq_cons] at h
    simp only [Bool.or_eq_true] at h
    rcases h with h | h
    · left
      rw [containsSeq_cons]
      cases x2 with
      | nil =>
        simp only [List.nil_append, leadsWith, hc, Bool.and_eq_true] at h
        exact absurd h.2.1 (by decide)
      | cons e x3 =>
        simp only [List.cons_append, leadsWith, Bool.and_eq_true] at h
        simp [leadsWith, h.1, h.2.1]
    · rcases ih h with h2 | h2
      · exact Or.inl (containsSeq_of_tail _ d _ h2)
      · exact Or.inr h2

theorem collapseGo_keeps_nl2 (l : List Char) : ∀ pend,
    containsSeq ['\n', '\n'] (pend.reverse ++ l) = true →
    containsSeq ['\n', '\n'] (collapseGo l pend) = true := by
  induction l with
  | nil =>
    intro pend h
    rw [List.append_nil] at h
    exact squash_keeps_nl2 _ h
  | cons c t ih =>
    intro pend h
    by_cases hc : isPySpace c
    · have h2 : containsSeq ['\n', '\n'] ((c :: pend).reverse ++ t) = true := by
        rw [List.reverse_cons, List.append_assoc]
        exact h
      simpa [collapseGo, hc] using ih (c :: pend) h2
    · have hcn : ('\n' == c) = false := by
        cases hnc : ('\n' == c) with
        | false => rfl
        | true =>
          have hcc : '\n' = c := beq_iff_eq.mp hnc
          rw [← hcc] at hc
          exact absurd (by decide : isPySpace '\n' = true) hc
      simp only [collapseGo, hc, if_false]
      rcases nl2_split _ t c hcn h with h2 | h2
      · exact containsSeq_append_left _ _ _ (squash_keeps_nl2 _ h2)
      · exact containsSeq_append_right _ _ _
          (containsSeq_of_tail _ c _ (ih [] (by simpa using h2)))

/-- C4: re.sub(r"\n\s*\n", "\n\n", ...) (line 69) collapses newline runs:
    for every text containing a run of three or more consecutive newlines,
    the output still contains a blank line (two consecutive newlines) and
    never contains three consecutive newlines — every such run has been
    collapsed to exactly one blank line. -/
theorem collapseNl_collapses_runs (l : List Char)
    (h : containsSeq ['\n', '\n', '\n'] l = true) :
    containsSeq ['\n', '\n'] (collapseNl l) = true ∧
    containsSeq ['\n', '\n', '\n'] (collapseNl l) = false := by
  constructor
  · apply collapseGo_keeps_nl2 l []
    simp only [List.reverse_nil, List.nil_append]
    exact containsSeq_mono ['\n', '\n'] ['\n'] l h
  · exact collapseGo_noTriple l []

/-- Witness for C4 at the concrete text "a\n\n\nb". -/
theorem collapseNl_collapses_runs_witness :
    containsSeq ['\n', '\n']
      (collapseNl ('a' :: '\n' :: '\n' :: '\n' :: 'b' :: [])) = true ∧
    containsSeq ['\n', '\n', '\n']
      (collapseNl ('a' :: '\n' :: '\n' :: '\n' :: 'b' :: [])) = false :=
  collapseNl_collapses_runs ('a' :: '\n' :: '\n' :: '\n' :: 'b' :: []) (by decide)

/- ---------------------------------------------------------------------
   C5: the `<br>` substitution of line 68.
   --------------------------------------------------------------------- -/

theorem hasBrLit_cons (c : Char) (t : List Char) :
    hasBrLit (c :: t) = (isBrLitAt (c :: t) || hasBrLit t) := rfl

theorem isBrLitAt_ne_lt (c : Char) (X : List Char) (hc : (c = '<') = false) :
    isBrLitAt (c :: X) = false := by
  cases X with
  | nil => rfl
  | cons b X1 =>
    cases X1 with
    | nil => rfl
    | cons r X2 => simp [isBrLitAt, hc]

theorem isBrLitAt_second (b : Char) (X : List Char)
    (hb : (b.toLower = 'b') = false) : isBrLitAt ('<' :: b :: X) = false := by
  cases X with
  | nil => rfl
  | cons r X2 => simp [isBrLitAt, hb]

theorem isBrLitAt_third (b r : Char) (X : List Char)
    (hr : (r.toLower = 'r') = false) : isBrLitAt ('<' :: b :: r :: X) = false := by
  simp [isBrLitAt, hr]

theorem isBrLitAt_close (b r x : Char) (X : List Char)
    (h1 : (x = '>') = false) (h2 : (x = '/') = false) :
    isBrLitAt ('<' :: b :: r :: x :: X) = false := by
  simp [isBrLitAt, isBrClose, h1, h2]

theorem isBrLitAt_slash (b r x : Char) (X : List Char)
    (h1 : (x = '>') = false) :
    isBrLitAt ('<' :: b :: r :: '/' :: x :: X) = false := by
  simp [isBrLitAt, isBrClose, h1]

theorem hasBrLit_skip (w X : List Char) (hw : ∀ x ∈ w, (x = '<') = false) :
    hasBrLit (w ++ X) = hasBrLit X := by
  induction w with
  | nil => rfl
  | cons e w2 ih =>
    rw [List.cons_append, hasBrLit_cons,
      isBrLitAt_ne_lt e _ (hw e (List.mem_cons_self e w2))]
    simp only [Bool.false_or]
    exact ih (fun x hx => hw x (List.mem_cons_of_mem e hx))

theorem ne_lt_of_toLower_b (b : Char) (hb : b.toLower = 'b') : (b = '<') = false := by
  by_cases h : b = '<'
  · subst h
    exact absurd hb (by decide)
  · simp [h]

theorem ne_lt_of_toLower_r (r : Char) (hr : r.toLower = 'r') : (r = '<') = false := by
  by_cases h : r = '<'
  · subst h
    exact absurd hr (by decide)
  · simp [h]

theorem ne_of_ws (x : Char) (hx : isPySpace x = true) :
    (x = '<') = false ∧ (x = '>') = false ∧ (x = '/') = false := by
  refine ⟨?_, ?_, ?_⟩
  · by_cases h : x = '<'
    · subst h
      exact absurd hx (by decide)
    · simp [h]
  · by_cases h : x = '>'
    · subst h
      exact absurd hx (by decide)
    · simp [h]
  · by_cases h : x = '/'
    · subst h
      exact absurd hx (by decide)
    · simp [h]

/-- Every output of `brGo` from a non-neutral state starts with '<' (a
    flushed partial match) or '\n' (a completed match). -/
theorem brGo_head (t : List Char) : ∀ st, st ≠ BrSt.normal →
    (∃ u, brGo st t = '<' :: u) ∨ (∃ u, brGo st t = '\n' :: u) := by
  induction t with
  | nil =>
    intro st hst
    cases st with
    | normal => exact absurd rfl hst
    | lt => exact Or.inl ⟨_, rfl⟩
    | ltB b => exact Or.inl ⟨_, rfl⟩
    | ltBR b r ws => exact Or.inl ⟨_, rfl⟩
    | ltBRslash b r ws => exact Or.inl ⟨_, rfl⟩
  | cons c t2 ih =>
    intro st hst
    cases st with
    | normal => exact absurd rfl hst
    | lt =>
      by_cases hb : c.toLower = 'b'
      · have he : brGo .lt (c :: t2) = brGo (.ltB c) t2 := by
          simp only [brGo]
          rw [if_pos hb]
        rw [he]
        exact ih _ (fun hx => BrSt.noConfusion hx)
      · by_cases hc : c = '<'
        · refine Or.inl ⟨brGo .lt t2, ?_⟩
          simp only [brGo]
          rw [if_neg hb, if_pos hc]
        · refine Or.inl ⟨c :: brGo .normal t2, ?_⟩
          simp only [brGo]
          rw [if_neg hb, if_neg hc]
    | ltB b =>
      by_cases hr : c.toLower = 'r'
      · have he : brGo (.ltB b) (c :: t2) = brGo (.ltBR b c []) t2 := by
          simp only [brGo]
          rw [if_pos hr]
        rw [he]
        exact ih _ (fun hx => BrSt.noConfusion hx)
      · by_cases hc : c = '<'
        · refine Or.inl ⟨b :: brGo .lt t2, ?_⟩
          simp only [brGo]
          rw [if_neg hr, if_pos hc]
        · refine Or.inl ⟨b :: c :: brGo .normal t2, ?_⟩
          simp only [brGo]
          rw [if_neg hr, if_neg hc]
    | ltBR b r ws =>
      by_cases hgt : c = '>'
      · refine Or.inr ⟨brGo .normal t2, ?_⟩
        simp only [brGo]
        rw [if_pos hgt]
      · by_cases hsl : c = '/'
        · have he : brGo (.ltBR b r ws) (c :: t2) = brGo (.ltBRslash b r ws) t2 := by
            simp only [brGo]
            rw [if_neg hgt, if_pos hsl]
          rw [he]
          exact ih _ (fun hx => BrSt.noConfusion hx)
        · by_cases hws : isPySpace c
          · have he : brGo (.ltBR b r ws) (c :: t2) = brGo (.ltBR b r (c :: ws)) t2 := by
              simp only [brGo]
              rw [if_neg hgt, if_neg hsl, if_pos hws]
            rw [he]
            exact ih _ (fun hx => BrSt.noConfusion hx)
          · by_cases hc : c = '<'
            · refine Or.inl ⟨b :: r :: (ws.reverse ++ brGo .lt t2), ?_⟩
              simp only [brGo]
              rw [if_neg hgt, if_neg hsl, if_neg hws, if_pos hc]
              rfl
            · refine Or.inl ⟨b :: r :: (ws.reverse ++ c :: brGo .normal t2), ?_⟩
              simp only [brGo]
              rw [if_neg hgt, if_neg hsl, if_neg hws, if_neg hc]
              rfl
    | ltBRslash b r ws =>
      by_cases hgt : c = '>'
      · refine Or.inr ⟨brGo .normal t2, ?_⟩
        simp only [brGo]
        rw [if_pos hgt]
      · by_cases hc : c = '<'
        · refine Or.inl ⟨b :: r :: ((ws.reverse ++ ['/']) ++ brGo .lt t2), ?_⟩
          simp only [brGo]
          rw [if_neg hgt, if_pos hc]
          rfl
        · refine Or.inl ⟨b :: r :: ((ws.reverse ++ ['/']) ++ c :: brGo .normal t2), ?_⟩
          simp only [brGo]
          rw [if_neg hgt, if_neg hc]
          rfl

theorem isBrClose_cons_ne (x : Char) (rest : List Char)
    (h1 : (x = '>') = false) (h2 : (x = '/') = false) :
    isBrClose (x :: rest) = false := by
  simp [isBrClose, h1, h2]

theorem isBrClose_slash_cons (y : Char) (rest : List Char)
    (hy : (y = '>') = false) : isBrClose ('/' :: y :: rest) = false := by
  simp [isBrClose, hy]

theorem hasBrLit_all_ne (w : List Char) (hw : ∀ x ∈ w, (x = '<') = false) :
    hasBrLit w = false := by
  have h := hasBrLit_skip w [] hw
  simpa using h

/-- Invariant on the reachable states of the `<br>` scanner: the recorded
    characters did pass their case-insensitive tests, and the recorded
    whitespace run is whitespace. -/
def brStOk : BrSt → Prop
  | .normal => True
  | .lt => True
  | .ltB b => b.toLower = 'b'
  | .ltBR b r ws => b.toLower = 'b' ∧ r.toLower = 'r' ∧ ∀ x ∈ ws, isPySpace x = true
  | .ltBRslash b r ws => b.toLower = 'b' ∧ r.toLower = 'r' ∧ ∀ x ∈ ws, isPySpace x = true

theorem brGo_no_lit (t : List Char) : ∀ st, brStOk st →
    hasBrLit (brGo st t) = false := by
  induction t with
  | nil =>
    intro st hok
    cases st with
    | normal => rfl
    | lt => decide
    | ltB b => rfl
    | ltBR b r ws =>
      rcases hok with ⟨hb, hr, hws⟩
      show hasBrLit ('<' :: b :: r :: ws.reverse) = false
      have hclose : isBrClose ws.reverse = false := by
        cases hrev : ws.reverse with
        | nil => rfl
        | cons x v =>
          have hx : x ∈ ws := List.mem_reverse.mp (by rw [hrev]; exact List.mem_cons_self x v)
          exact isBrClose_cons_ne x v (ne_of_ws x (hws x hx)).2.1 (ne_of_ws x (hws x hx)).2.2
      rw [hasBrLit_cons]
      have h0 : isBrLitAt ('<' :: b :: r :: ws.reverse) = false := by
        simp [isBrLitAt, hclose]
      have h1 : hasBrLit (b :: r :: ws.reverse) = false := by
        apply hasBrLit_all_ne
        intro x hx
        rcases List.mem_cons.mp hx with rfl | hx2
        · exact ne_lt_of_toLower_b _ hb
        rcases List.mem_cons.mp hx2 with rfl | hx3
        · exact ne_lt_of_toLower_r _ hr
        · exact (ne_of_ws x (hws x (List.mem_reverse.mp hx3))).1
      simp [h0, h1]
    | ltBRslash b r ws =>
      rcases hok with ⟨hb, hr, hws⟩
      show hasBrLit ('<' :: b :: r :: (ws.reverse ++ ['/'])) = false
      have hclose : isBrClose (ws.reverse ++ ['/']) = false := by
        cases hrev : ws.reverse with
        | nil => decide
        | cons x v =>
          have hx : x ∈ ws := List.mem_reverse.mp (by rw [hrev]; exact List.mem_cons_self x v)
          rw [List.cons_append]
          exact isBrClose_cons_ne x _ (ne_of_ws x (hws x hx)).2.1 (ne_of_ws x (hws x hx)).2.2
      rw [hasBrLit_cons]
      have h0 : isBrLitAt ('<' :: b :: r :: (ws.reverse ++ ['/'])) = false := by
        simp [isBrLitAt, hclose]
      have h1 : hasBrLit (b :: r :: (ws.reverse ++ ['/'])) = false := by
        apply hasBrLit_all_ne
        intro x hx
        rcases List.mem_cons.mp hx with rfl | hx2
        · exact ne_lt_of_toLower_b _ hb
        rcases List.mem_cons.mp hx2 with rfl | hx3
        · exact ne_lt_of_toLower_r _ hr
        rcases List.mem_append.mp hx3 with hx4 | hx4
        · exact (ne_of_ws x (hws x (List.mem_reverse.mp hx4))).1
        · rcases List.mem_singleton.mp hx4 with rfl
          decide
      simp [h0, h1]
  | cons c t2 ih =>
    intro st hok
    cases st with
    | normal =>
      by_cases hc : c = '<'
      · have he : brGo .normal (c :: t2) = brGo .lt t2 := by
          simp only [brGo]
          rw [if_pos hc]
        rw [he]
        exact ih _ trivial
      · have he : brGo .normal (c :: t2) = c :: brGo .normal t2 := by
          simp only [brGo]
          rw [if_neg hc]
        rw [he, hasBrLit_cons]
        simp [isBrLitAt_ne_lt c _ (by simp [hc]), ih BrSt.normal trivial]
    | lt =>
      by_cases hb : c.toLower = 'b'
      · have he : brGo .lt (c :: t2) = brGo (.ltB c) t2 := by
          simp only [brGo]
          rw [if_pos hb]
        rw [he]
        exact ih _ hb
      · by_cases hc : c = '<'
        · have he : brGo .lt (c :: t2) = '<' :: brGo .lt t2 := by
            simp only [brGo]
            rw [if_neg hb, if_pos hc]
          rw [he, hasBrLit_cons]
          have hlit : isBrLitAt ('<' :: brGo .lt t2) = false := by
            rcases brGo_head t2 .lt (fun hx => BrSt.noConfusion hx) with ⟨u, hu⟩ | ⟨u, hu⟩ <;>
              rw [hu]
            · exact isBrLitAt_second _ _ (by decide)
            · exact isBrLitAt_second _ _ (by decide)
          simp [hlit, ih BrSt.lt trivial]
        · have he : brGo .lt (c :: t2) = '<' :: c :: brGo .normal t2 := by
            simp only [brGo]
            rw [if_neg hb, if_neg hc]
          rw [he, hasBrLit_cons]
          have hlit : isBrLitAt ('<' :: c :: brGo .normal t2) = false :=
            isBrLitAt_second _ _ (by simp [hb])
          rw [hasBrLit_cons]
          simp [hlit, isBrLitAt_ne_lt c _ (by simp [hc]), ih BrSt.normal trivial]
    | ltB b =>
      have hb : b.toLower = 'b' := hok
      by_cases hr : c.toLower = 'r'
      · have he : brGo (.ltB b) (c :: t2) = brGo (.ltBR b c []) t2 := by
          simp only [brGo]
          rw [if_pos hr]
        rw [he]
        exact ih _ ⟨hb, hr, by intro x hx; exact absurd hx (List.not_mem_nil x)⟩
      · by_cases hc : c = '<'
        · have he : brGo (.ltB b) (c :: t2) = '<' :: b :: brGo .lt t2 := by
            simp only [brGo]
            rw [if_neg hr, if_pos hc]
          rw [he, hasBrLit_cons]
          have hlit : isBrLitAt ('<' :: b :: brGo .lt t2) = false := by
            rcases brGo_head t2 .lt (fun hx => BrSt.noConfusion hx) with ⟨u, hu⟩ | ⟨u, hu⟩ <;>
              rw [hu]
            · exact isBrLitAt_third _ _ _ (by decide)
            · exact isBrLitAt_third _ _ _ (by decide)
          rw [hasBrLit_cons]
          simp [hlit, isBrLitAt_ne_lt b _ (ne_lt_of_toLower_b b hb), ih BrSt.lt trivial]
        · have he : brGo (.ltB b) (c :: t2) = '<' :: b :: c :: brGo .normal t2 := by
            simp only [brGo]
            rw [if_neg hr, if_neg hc]
          rw [he, hasBrLit_cons]
          have hlit : isBrLitAt ('<' :: b :: c :: brGo .normal t2) = false :=
            isBrLitAt_third _ _ _ (by simp [hr])
          rw [hasBrLit_cons, hasBrLit_cons]
          simp [hlit, isBrLitAt_ne_lt b _ (ne_lt_of_toLower_b b hb),
            isBrLitAt_ne_lt c _ (by simp [hc]), ih BrSt.normal trivial]
    | ltBR b r ws =>
      rcases hok with ⟨hb, hr, hws⟩
      by_cases hgt : c = '>'
      · have he : brGo (.ltBR b r ws) (c :: t2) = '\n' :: brGo .normal t2 := by
          simp only [brGo]
          rw [if_pos hgt]
        rw [he, hasBrLit_cons]
        simp [isBrLitAt_ne_lt '\n' _ (by decide), ih BrSt.normal trivial]
      · by_cases hsl : c = '/'
        · have he : brGo (.ltBR b r ws) (c :: t2) = brGo (.ltBRslash b r ws) t2 := by
            simp only [brGo]
            rw [if_neg hgt, if_pos hsl]
          rw [he]
          exact ih _ ⟨hb, hr, hws⟩
        · by_cases hws2 : isPySpace c
          · have he : brGo (.ltBR b r ws) (c :: t2) = brGo (.ltBR b r (c :: ws)) t2 := by
              simp only [brGo]
              rw [if_neg hgt, if_neg hsl, if_pos hws2]
            rw [he]
            refine ih _ ⟨hb, hr, ?_⟩
            intro x hx
            rcases List.mem_cons.mp hx with rfl | hx2
            · exact hws2
            · exact hws x hx2
          · by_cases hc : c = '<'
            · have he : brGo (.ltBR b r ws) (c :: t2) =
                  '<' :: b :: r :: (ws.reverse ++ brGo .lt t2) := by
                simp only [brGo]
                rw [if_neg hgt, if_neg hsl, if_neg hws2, if_pos hc]
                rfl
              rw [he, hasBrLit_cons]
              have hclose : isBrClose (ws.reverse ++ brGo .lt t2) = false := by
                cases hrev : ws.reverse with
                | nil =>
                  rw [List.nil_append]
                  rcases brGo_head t2 .lt (fun hx => BrSt.noConfusion hx) with
                    ⟨u, hu⟩ | ⟨u, hu⟩ <;> rw [hu]
                  · exact isBrClose_cons_ne _ _ (by decide) (by decide)
                  · exact isBrClose_cons_ne _ _ (by decide) (by decide)
                | cons x v =>
                  have hx : x ∈ ws := List.mem_reverse.mp
                    (by rw [hrev]; exact List.mem_cons_self x v)
                  rw [List.cons_append]
                  exact isBrClose_cons_ne x _ (ne_of_ws x (hws x hx)).2.1
                    (ne_of_ws x (hws x hx)).2.2
              have h0 : isBrLitAt ('<' :: b :: r :: (ws.reverse ++ brGo .lt t2)) = false := by
                simp [isBrLitAt, hclose]
              have h1 : hasBrLit (b :: r :: (ws.reverse ++ brGo .lt t2)) = false := by
                rw [show b :: r :: (ws.reverse ++ brGo .lt t2) =
                  (b :: r :: ws.reverse) ++ brGo .lt t2 from rfl]
                rw [hasBrLit_skip]
                · exact ih BrSt.lt trivial
                · intro x hx
                  rcases List.mem_cons.mp hx with rfl | hx2
                  · exact ne_lt_of_toLower_b _ hb
                  rcases List.mem_cons.mp hx2 with rfl | hx3
                  · exact ne_lt_of_toLower_r _ hr
                  · exact (ne_of_ws x (hws x (List.mem_reverse.mp hx3))).1
              simp [h0, h1]
            · have he : brGo (.ltBR b r ws) (c :: t2) =
                  '<' :: b :: r :: (ws.reverse ++ c :: brGo .normal t2) := by
                simp only [brGo]
                rw [if_neg hgt, if_neg hsl, if_neg hws2, if_neg hc]
                rfl
              rw [he, hasBrLit_cons]
              have hclose : isBrClose (ws.reverse ++ c :: brGo .normal t2) = false := by
                cases hrev : ws.reverse with
                | nil =>
                  rw [List.nil_append]
                  exact isBrClose_cons_ne c _ (by simp [hgt]) (by simp [hsl])
                | cons x v =>
                  have hx : x ∈ ws := List.mem_reverse.mp
                    (by rw [hrev]; exact List.mem_cons_self x v)
                  rw [List.cons_append]
                  exact isBrClose_cons_ne x _ (ne_of_ws x (hws x hx)).2.1
                    (ne_of_ws x (hws x hx)).2.2
              have h0 : isBrLitAt ('<' :: b :: r :: (ws.reverse ++ c :: brGo .normal t2)) =
                  false := by
                simp [isBrLitAt, hclose]
              have h1 : hasBrLit (b :: r :: (ws.reverse ++ c :: brGo .normal t2)) = false := by
                rw [show b :: r :: (ws.reverse ++ c :: brGo .normal t2) =
                  (b :: r :: ws.reverse) ++ c :: brGo .normal t2 from rfl]
                rw [hasBrLit_skip]
                · rw [hasBrLit_cons]
                  simp [isBrLitAt_ne_lt c _ (by simp [hc]), ih BrSt.normal trivial]
                · intro x hx
                  rcases List.mem_cons.mp hx with rfl | hx2
                  · exact ne_lt_of_toLower_b _ hb
                  rcases List.mem_cons.mp hx2 with rfl | hx3
                  · exact ne_lt_of_toLower_r _ hr
                  · exact (ne_of_ws x (hws x (List.mem_reverse.mp hx3))).1
              simp [h0, h1]
    | ltBRslash b r ws =>
      rcases hok with ⟨hb, hr, hws⟩
      by_cases hgt : c = '>'
      · have he : brGo (.ltBRslash b r ws) (c :: t2) = '\n' :: brGo .normal t2 := by
          simp only [brGo]
          rw [if_pos hgt]
        rw [he, hasBrLit_cons]
        simp [isBrLitAt_ne_lt '\n' _ (by decide), ih BrSt.normal trivial]
      · have hmem : ∀ x ∈ b :: r :: ws.reverse, (x = '<') = false := by
          intro x hx
          rcases List.mem_cons.mp hx with rfl | hx2
          · exact ne_lt_of_toLower_b _ hb
          rcases List.mem_cons.mp hx2 with rfl | hx3
          · exact ne_lt_of_toLower_r _ hr
          · exact (ne_of_ws x (hws x (List.mem_reverse.mp hx3))).1
        by_cases hc : c = '<'
        · have he : brGo (.ltBRslash b r ws) (c :: t2) =
              '<' :: b :: r :: (ws.reverse ++ '/' :: brGo .lt t2) := by
            simp only [brGo]
            rw [if_neg hgt, if_pos hc]
            show ('<' :: b :: r :: (ws.reverse ++ ['/'])) ++ brGo .lt t2 = _
            simp [List.append_assoc]
          rw [he, hasBrLit_cons]
          have hclose : isBrClose (ws.reverse ++ '/' :: brGo .lt t2) = false := by
            cases hrev : ws.reverse with
            | nil =>
              rw [List.nil_append]
              rcases brGo_head t2 .lt (fun hx => BrSt.noConfusion hx) with
                ⟨u, hu⟩ | ⟨u, hu⟩ <;> rw [hu]
              · exact isBrClose_slash_cons _ _ (by decide)
              · exact isBrClose_slash_cons _ _ (by decide)
            | cons x v =>
              have hx : x ∈ ws := List.mem_reverse.mp
                (by rw [hrev]; exact List.mem_cons_self x v)
              rw [List.cons_append]
              exact isBrClose_cons_ne x _ (ne_of_ws x (hws x hx)).2.1
                (ne_of_ws x (hws x hx)).2.2
          have h0 : isBrLitAt ('<' :: b :: r :: (ws.reverse ++ '/' :: brGo .lt t2)) =
              false := by
            simp [isBrLitAt, hclose]
          have h1 : hasBrLit (b :: r :: (ws.reverse ++ '/' :: brGo .lt t2)) = false := by
            rw [show b :: r :: (ws.reverse ++ '/' :: brGo .lt t2) =
              (b :: r :: ws.reverse) ++ '/' :: brGo .lt t2 from rfl]
            rw [hasBrLit_skip _ _ hmem, hasBrLit_cons]
            simp [isBrLitAt_ne_lt '/' _ (by decide), ih BrSt.lt trivial]
          simp [h0, h1]
        · have he : brGo (.ltBRslash b r ws) (c :: t2) =
              '<' :: b :: r :: (ws.reverse ++ '/' :: c :: brGo .normal t2) := by
            simp only [brGo]
            rw [if_neg hgt, if_neg hc]
            show ('<' :: b :: r :: (ws.reverse ++ ['/'])) ++ c :: brGo .normal t2 = _
            simp [List.append_assoc]
          rw [he, hasBrLit_cons]
          have hclose : isBrClose (ws.reverse ++ '/' :: c :: brGo .normal t2) = false := by
            cases hrev : ws.reverse with
            | nil =>
              rw [List.nil_append]
              exact isBrClose_slash_cons c _ (by simp [hgt])
            | cons x v =>
              have hx : x ∈ ws := List.mem_reverse.mp
                (by rw [hrev]; exact List.mem_cons_self x v)
              rw [List.cons_append]
              exact isBrClose_cons_ne x _ (ne_of_ws x (hws x hx)).2.1
                (ne_of_ws x (hws x hx)).2.2
          have h0 : isBrLitAt
              ('<' :: b :: r :: (ws.reverse ++ '/' :: c :: brGo .normal t2)) = false := by
            simp [isBrLitAt, hclose]
          have h1 : hasBrLit (b :: r :: (ws.reverse ++ '/' :: c :: brGo .normal t2)) =
              false := by
            rw [show b :: r :: (ws.reverse ++ '/' :: c :: brGo .normal t2) =
              (b :: r :: ws.reverse) ++ '/' :: c :: brGo .normal t2 from rfl]
            rw [hasBrLit_skip _ _ hmem, hasBrLit_cons]
            have hlit2 : hasBrLit (c :: brGo .normal t2) = false := by
              rw [hasBrLit_cons]
              simp [isBrLitAt_ne_lt c _ (by simp [hc]), ih BrSt.normal trivial]
            simp [isBrLitAt_ne_lt '/' _ (by decide), hlit2]
          simp [h0, h1]

/-- C5: re.sub(r"<br\s*/?>", "\n", ..., IGNORECASE) (line 68) replaces
    `<br>` tags: no literal `<br>` or `<br/>` tag (in any casing) survives
    in the output, and a literal tag at the scan position is replaced by
    exactly one newline, scanning resuming right after it. -/
theorem brSub_replaces_br_tags :
    (∀ l, hasBrLit (brSub l) = false) ∧
    (∀ b r t, b.toLower = 'b' → r.toLower = 'r' →
      brSub ('<' :: b :: r :: '>' :: t) = '\n' :: brSub t ∧
      brSub ('<' :: b :: r :: '/' :: '>' :: t) = '\n' :: brSub t) := by
  constructor
  · intro l
    exact brGo_no_lit l .normal trivial
  · intro b r t hb hr
    have e2 : ∀ u, brGo .lt (b :: u) = brGo (.ltB b) u := by
      intro u
      simp only [brGo]
      rw [if_pos hb]
    have e3 : ∀ u, brGo (.ltB b) (r :: u) = brGo (.ltBR b r []) u := by
      intro u
      simp only [brGo]
      rw [if_pos hr]
    constructor
    · show brGo .normal ('<' :: b :: r :: '>' :: t) = '\n' :: brGo .normal t
      have e1 : brGo .normal ('<' :: b :: r :: '>' :: t) =
          brGo .lt (b :: r :: '>' :: t) := rfl
      have e4 : brGo (.ltBR b r []) ('>' :: t) = '\n' :: brGo .normal t := rfl
      rw [e1, e2, e3, e4]
    · show brGo .normal ('<' :: b :: r :: '/' :: '>' :: t) = '\n' :: brGo .normal t
      have e1 : brGo .normal ('<' :: b :: r :: '/' :: '>' :: t) =
          brGo .lt (b :: r :: '/' :: '>' :: t) := rfl
      have e4 : brGo (.ltBR b r []) ('/' :: '>' :: t) =
          brGo (.ltBRslash b r []) ('>' :: t) := rfl
      have e5 : brGo (.ltBRslash b r []) ('>' :: t) = '\n' :: brGo .normal t := rfl
      rw [e1, e2, e3, e4, e5]

/-- Witness for C5 at the concrete tags `<br>` and `<BR/>`. -/
theorem brSub_replaces_br_tags_witness :
    brSub ('<' :: 'b' :: 'r' :: '>' :: 'x' :: []) = '\n' :: brSub ('x' :: []) ∧
    brSub ('<' :: 'B' :: 'R' :: '/' :: '>' :: 'x' :: []) = '\n' :: brSub ('x' :: []) :=
  ⟨(brSub_replaces_br_tags.2 'b' 'r' ('x' :: []) (by decide) (by decide)).1,
   (brSub_replaces_br_tags.2 'B' 'R' ('x' :: []) (by decide) (by decide)).2⟩

/- ---------------------------------------------------------------------
   C3: the digipanp-specific cleanup of lines 70-73.
   --------------------------------------------------------------------- -/

theorem imgGo_body_run (body : List Char) : ∀ p t,
    (∀ x ∈ body, (x = '>') = false) →
    imgGo (.body p) (body ++ '>' :: t) = imgGo .normal t := by
  induction body with
  | nil => intro p t _; rfl
  | cons x bs ih =>
    intro p t hb
    have hx : (x = '>') = false := hb x (List.mem_cons_self x bs)
    have he : imgGo (.body p) ((x :: bs) ++ '>' :: t) =
        imgGo (.body (x :: p)) (bs ++ '>' :: t) := by
      show imgGo (.body p) (x :: (bs ++ '>' :: t)) = _
      simp only [imgGo]
      rw [if_neg (by simp [hx] : ¬x = '>')]
    rw [he]
    exact ih _ _ (fun y hy => hb y (List.mem_cons_of_mem x hy))

/-- C3 (counterexample to the claim as stated): on the digipanp path, the
    input "a\n\n0\n\n0\n\nb" holds two isolated `0` lines each surrounded
    by blank lines, but the single left-to-right pass of
    re.sub(r"\n\n0\n\n", "\n\n", ...) only removes the first one: the
    normalized output "a\n\n0\n\nb" still contains an isolated `0` line
    surrounded by blank lines. -/
theorem digipanp_zero_line_survives :
    isDigipanp "KIC_digiPanp.md".toList = true ∧
    normalizeText "KIC_digiPanp.md".toList "a\n\n0\n\n0\n\nb".toList =
      "a\n\n0\n\nb".toList ∧
    containsSeq "\n\n0\n\n".toList
      (normalizeText "KIC_digiPanp.md".toList "a\n\n0\n\n0\n\nb".toList) = true := by
  refine ⟨by decide, by decide, by decide⟩

/-- C3 (amended): for paths containing "digipanp" (case-insensitively) the
    two extra cleanup passes run after the generic normalization; each
    scanned match of `<img` + whitespace + non-'>' characters + `>` is
    removed entirely, and each scanned occurrence of `\n\n0\n\n` is
    replaced by one blank line, the scan resuming after the replacement —
    so an occurrence overlapping an earlier match (such as the second of
    two consecutive isolated `0` lines) is not removed. -/
theorem digipanp_cleanup :
    (∀ path raw, isDigipanp path = true →
      normalizeText path raw = zeroSub (imgSub (collapseNl (brSub raw)))) ∧
    (∀ t, zeroSub ('\n' :: '\n' :: '0' :: '\n' :: '\n' :: t) =
      '\n' :: '\n' :: zeroSub t) ∧
    (∀ i m g w body t, i.toLower = 'i' → m.toLower = 'm' → g.toLower = 'g' →
      isPySpace w = true → (∀ x ∈ body, (x = '>') = false) →
      imgSub ('<' :: i :: m :: g :: w :: (body ++ '>' :: t)) = imgSub t) := by
  refine ⟨?_, ?_, ?_⟩
  · intro path raw h
    simp [normalizeText, h]
  · intro t
    rfl
  · intro i m g w body t hi hm hg hw hb
    show imgGo .normal ('<' :: i :: m :: g :: w :: (body ++ '>' :: t)) = imgGo .normal t
    have e1 : imgGo .normal ('<' :: i :: m :: g :: w :: (body ++ '>' :: t)) =
        imgGo .lt (i :: m :: g :: w :: (body ++ '>' :: t)) := rfl
    have e2 : imgGo .lt (i :: m :: g :: w :: (body ++ '>' :: t)) =
        imgGo (.lti i) (m :: g :: w :: (body ++ '>' :: t)) := by
      simp only [imgGo]
      rw [if_pos hi]
    have e3 : imgGo (.lti i) (m :: g :: w :: (body ++ '>' :: t)) =
        imgGo (.ltim i m) (g :: w :: (body ++ '>' :: t)) := by
      simp only [imgGo]
      rw [if_pos hm]
    have e4 : imgGo (.ltim i m) (g :: w :: (body ++ '>' :: t)) =
        imgGo (.ltimg i m g) (w :: (body ++ '>' :: t)) := by
      simp only [imgGo]
      rw [if_pos hg]
    have e5 : imgGo (.ltimg i m g) (w :: (body ++ '>' :: t)) =
        imgGo (.body [w, g, m, i]) (body ++ '>' :: t) := by
      simp only [imgGo]
      rw [if_pos hw]
    rw [e1, e2, e3, e4, e5, imgGo_body_run body _ _ hb]

/-- Witness for C3 (amended) at a concrete `0` line and `<img x>` tag. -/
theorem digipanp_cleanup_witness :
    zeroSub ('\n' :: '\n' :: '0' :: '\n' :: '\n' :: 'b' :: []) =
      '\n' :: '\n' :: zeroSub ('b' :: []) ∧
    imgSub ('<' :: 'i' :: 'm' :: 'g' :: ' ' :: (('x' :: []) ++ '>' :: 'y' :: [])) =
      imgSub ('y' :: []) :=
  ⟨digipanp_cleanup.2.1 ('b' :: []),
   digipanp_cleanup.2.2 'i' 'm' 'g' ' ' ('x' :: []) ('y' :: [])
     (by decide) (by decide) (by decide) (by decide)
     (by
       intro x hx
       rw [List.mem_singleton] at hx
       subst hx
       decide)⟩
